import Mathlib

/-!
Verification development for the Deepfreeze repository
(`src/deepfreeze/{domain,snapshot,manager}.py`).

The Python code is shallowly embedded as follows.

* Bytes are `Nat`; Python byte strings (file names after `.encode()`, file
  contents) are `List Nat`.  Python compares strings lexicographically by
  code point, which for the names we model coincides with lexicographic
  order on the byte lists (`lexLe`).
* A directory tree is the nested inductive `FsNode`: a file carries its
  content and a `readable` flag (an unreadable file is one for which
  `open` raises `IOError`/`OSError`), a directory carries its entries as a
  list of `(name, node)` pairs.  The order of the entry list models the
  order in which the operating system happens to list the directory;
  `os.walk` results are derived from it.
* `SnapshotManager._calculate_directory_hash` feeds bytes into a single
  `hashlib.sha256()` accumulator and returns its hexdigest.  The SHA-256
  compression itself is not modelled: the embedded
  `calculate_directory_hash` returns the exact byte stream fed to the
  accumulator, so that two Python hash values are equal exactly when the
  two embedded streams are equal (the standard collision-free idealisation
  of a cryptographic hash).  Note the source feeds `filepath.name` (the
  base name) before opening the file, so an unreadable file still
  contributes its name, but not its content.
* Python `dict`s are association lists (`List (key × value)`), preserving
  Python's insertion order; `alookup`/`aset` model membership test and
  `d[k] = v`.
* Fallible operations return `Except`: `.error` models an uncaught Python
  exception propagating out of the function, `.ok` a normal return.
  Where `shutil.copy2`/`shutil.copytree` may raise `IOError`, the
  possibility is modelled by a `copy_ok` flag supplied with the input.
-/

namespace Deepfreeze

/-- A byte string: file names (encoded) and file contents. -/
abbrev ByteStr := List Nat

/-- Lexicographic order on byte strings, embedding Python's `<=` on `str`
as used by `sorted` / `list.sort`. -/
def lexLe : ByteStr → ByteStr → Bool
  | [], _ => true
  | _ :: _, [] => false
  | a :: as, b :: bs => if a < b then true else if a = b then lexLe as bs else false

/-- Strict lexicographic order on byte strings. -/
def lexLt : ByteStr → ByteStr → Bool
  | [], [] => false
  | [], _ :: _ => true
  | _ :: _, [] => false
  | a :: as, b :: bs => if a < b then true else if a = b then lexLt as bs else false

/-- A node of a directory tree: a file (content plus a readability flag,
`readable = false` meaning `open` raises `IOError`/`OSError`) or a
directory with its listed entries. -/
inductive FsNode where
  | file (content : List Nat) (readable : Bool)
  | dir (entries : List (ByteStr × FsNode))

/-- A named directory entry. -/
abbrev FsEntry := ByteStr × FsNode

def FsNode.isFile : FsNode → Bool
  | .file _ _ => true
  | .dir _ => false

def FsNode.isDir : FsNode → Bool
  | .file _ _ => false
  | .dir _ => true

/-- Ordered insertion by entry name, the building block of the sorting
performed by `dirs.sort()` and `sorted(files)` in the source. -/
def insEntry (e : FsEntry) : List FsEntry → List FsEntry
  | [] => [e]
  | x :: xs => if lexLe e.1 x.1 then e :: x :: xs else x :: insEntry e xs

/-- Sorting a list of directory entries by name (insertion sort), the
embedding of `dirs.sort()` / `sorted(files)`. -/
def sortEntries : List FsEntry → List FsEntry
  | [] => []
  | x :: xs => insEntry x (sortEntries xs)

theorem insEntry_perm (e : FsEntry) (l : List FsEntry) :
    List.Perm (insEntry e l) (e :: l) := by
  induction l with
  | nil => simp [insEntry]
  | cons x xs ih =>
    simp only [insEntry]
    split
    · exact List.Perm.refl _
    · exact (List.Perm.cons x ih).trans (List.Perm.swap e x xs)

theorem sortEntries_perm (l : List FsEntry) : List.Perm (sortEntries l) l := by
  induction l with
  | nil => simp [sortEntries]
  | cons x xs ih =>
    exact (insEntry_perm x (sortEntries xs)).trans (List.Perm.cons x ih)

theorem sizeOf_perm {l₁ l₂ : List FsEntry} (h : List.Perm l₁ l₂) :
    sizeOf l₁ = sizeOf l₂ := by
  induction h with
  | nil => rfl
  | cons x _ ih => simp [ih]
  | swap x y l => simp; omega
  | trans _ _ ih₁ ih₂ => omega

theorem sizeOf_filter_le (p : FsEntry → Bool) (l : List FsEntry) :
    sizeOf (l.filter p) ≤ sizeOf l := by
  induction l with
  | nil => simp
  | cons x xs ih =>
    simp only [List.filter]
    split <;> simp <;> omega

theorem sizeOf_sortFilter_lt (p : FsEntry → Bool) (l : List FsEntry) :
    sizeOf (sortEntries (l.filter p)) < 1 + sizeOf l := by
  have h1 := sizeOf_perm (sortEntries_perm (l.filter p))
  have h2 := sizeOf_filter_le p l
  omega

theorem sizeOf_snd_lt (x : FsEntry) : sizeOf x.2 < sizeOf x := by
  cases x; simp; try omega

/-- What one file entry feeds into the hash accumulator:
`hasher.update(filepath.name.encode())` happens before `open(filepath)`,
so an unreadable file contributes its name but no content. -/
def fileContrib : FsEntry → List Nat
  | (n, .file c r) => n ++ (if r then c else [])
  | (_, .dir _) => []

mutual

/-- Embeds `SnapshotManager._calculate_directory_hash`: the byte stream
fed into the single `hashlib.sha256` accumulator by `os.walk(path)` with
`dirs.sort()` and `for filename in sorted(files)`.  At each directory the
files of that directory are processed (sorted by name) before the sorted
subdirectories are walked.  The hexdigest is idealised as the stream
itself (see the module docstring).  Walking a non-directory yields
nothing, matching `os.walk` on a non-directory path. -/
def calculate_directory_hash (n : FsNode) : List Nat :=
  match n with
  | .file _ _ => []
  | .dir es =>
    ((sortEntries (es.filter (fun e => e.2.isFile))).map fileContrib).flatten
      ++ walkStreams (sortEntries (es.filter (fun e => e.2.isDir)))
termination_by sizeOf n
decreasing_by
  simp only [FsNode.dir.sizeOf_spec]
  apply sizeOf_sortFilter_lt

/-- The concatenated streams of a list of (sub)directory entries, in
list order. -/
def walkStreams (l : List FsEntry) : List Nat :=
  match l with
  | [] => []
  | e :: rest => calculate_directory_hash e.2 ++ walkStreams rest
termination_by sizeOf l
decreasing_by
  · simp only [List.cons.sizeOf_spec]
    exact Nat.lt_of_lt_of_le (sizeOf_snd_lt _) (by omega)
  · simp; try omega

end

theorem walkStreams_append (l₁ l₂ : List FsEntry) :
    walkStreams (l₁ ++ l₂) = walkStreams l₁ ++ walkStreams l₂ := by
  induction l₁ with
  | nil => simp [walkStreams]
  | cons x xs ih =>
    rw [List.cons_append, walkStreams, walkStreams, ih, List.append_assoc]

/-! Order-theoretic facts about `lexLe`/`lexLt`, and uniqueness of the
sorted order for entry lists with distinct names. -/

theorem lexLe_refl (a : ByteStr) : lexLe a a = true := by
  induction a with
  | nil => rfl
  | cons x xs ih => simp [lexLe, ih]

theorem lexLe_total (a b : ByteStr) : lexLe a b = true ∨ lexLe b a = true := by
  induction a generalizing b with
  | nil => left; rfl
  | cons x xs ih =>
    cases b with
    | nil => right; rfl
    | cons y ys =>
      rcases Nat.lt_trichotomy x y with h | h | h
      · left; simp [lexLe, h]
      · subst h
        rcases ih ys with h2 | h2
        · left; simp [lexLe, h2]
        · right; simp [lexLe, h2]
      · right; simp [lexLe, h]

theorem lexLe_trans {a b c : ByteStr} (h1 : lexLe a b = true) (h2 : lexLe b c = true) :
    lexLe a c = true := by
  induction a generalizing b c with
  | nil => rfl
  | cons x xs ih =>
    cases b with
    | nil => simp [lexLe] at h1
    | cons y ys =>
      cases c with
      | nil => simp [lexLe] at h2
      | cons z zs =>
        simp only [lexLe] at h1 h2 ⊢
        split at h1
        · split at h2
          · simp; omega
          · split at h2
            · simp; omega
            · exact absurd h2 (by simp)
        · split at h1
          · split at h2
            · simp; omega
            · split at h2
              · rename_i hxy _ hyz
                simp only [hxy, hyz]
                simp [ih h1 h2]
              · exact absurd h2 (by simp)
          · exact absurd h1 (by simp)

theorem lexLe_antisymm {a b : ByteStr} (h1 : lexLe a b = true) (h2 : lexLe b a = true) :
    a = b := by
  induction a generalizing b with
  | nil =>
    cases b with
    | nil => rfl
    | cons y ys => simp [lexLe] at h2
  | cons x xs ih =>
    cases b with
    | nil => simp [lexLe] at h1
    | cons y ys =>
      simp only [lexLe] at h1 h2
      split at h1
      case isTrue hlt =>
        split at h2
        case isTrue hlt2 => omega
        case isFalse hlt2 =>
          split at h2
          case isTrue heq2 => omega
          case isFalse heq2 => simp at h2
      case isFalse hlt =>
        split at h1
        case isTrue heq =>
          split at h2
          case isTrue hlt2 => omega
          case isFalse hlt2 =>
            split at h2
            case isTrue heq2 => rw [heq, ih h1 h2]
            case isFalse heq2 => simp at h2
        case isFalse heq => simp at h1

theorem lexLt_le {a b : ByteStr} (h : lexLt a b = true) : lexLe a b = true := by
  induction a generalizing b with
  | nil => rfl
  | cons x xs ih =>
    cases b with
    | nil => simp [lexLt] at h
    | cons y ys =>
      simp only [lexLt] at h
      simp only [lexLe]
      split at h
      · simp_all
      · split at h
        · simp_all [ih h]
        · exact absurd h (by simp)

theorem lexLt_ne {a b : ByteStr} (h : lexLt a b = true) : a ≠ b := by
  induction a generalizing b with
  | nil =>
    cases b with
    | nil => simp [lexLt] at h
    | cons y ys => simp
  | cons x xs ih =>
    cases b with
    | nil => simp [lexLt] at h
    | cons y ys =>
      simp only [lexLt] at h
      split at h
      · simp; omega
      · split at h
        · have := ih h
          simp_all
        · exact absurd h (by simp)

theorem lexLt_trans {a b c : ByteStr} (h1 : lexLt a b = true) (h2 : lexLt b c = true) :
    lexLt a c = true := by
  induction a generalizing b c with
  | nil =>
    cases b with
    | nil => simp [lexLt] at h1
    | cons y ys =>
      cases c with
      | nil => simp [lexLt] at h2
      | cons z zs => rfl
  | cons x xs ih =>
    cases b with
    | nil => simp [lexLt] at h1
    | cons y ys =>
      cases c with
      | nil => simp [lexLt] at h2
      | cons z zs =>
        simp only [lexLt] at h1 h2 ⊢
        split at h1
        · split at h2
          · simp; omega
          · split at h2
            · simp; omega
            · exact absurd h2 (by simp)
        · split at h1
          · split at h2
            · simp; omega
            · split at h2
              · rename_i hxy _ hyz
                simp only [hxy, hyz]
                simp [ih h1 h2]
              · exact absurd h2 (by simp)
          · exact absurd h1 (by simp)

/-- Comparison of two directory entries by name, non-strict. -/
def entLe (a b : FsEntry) : Prop := lexLe a.1 b.1 = true

/-- Comparison of two directory entries by name, strict. -/
def entLt (a b : FsEntry) : Prop := lexLt a.1 b.1 = true

theorem mem_insEntry {y e : FsEntry} {l : List FsEntry} (h : y ∈ insEntry e l) :
    y = e ∨ y ∈ l :=
  List.mem_cons.mp ((insEntry_perm e l).subset h)

theorem pairwise_insEntry {e : FsEntry} {l : List FsEntry}
    (hl : List.Pairwise entLe l) : List.Pairwise entLe (insEntry e l) := by
  induction l with
  | nil => simp [insEntry, List.pairwise_cons]
  | cons x xs ih =>
    rw [List.pairwise_cons] at hl
    simp only [insEntry]
    split
    · rename_i hex
      refine List.Pairwise.cons ?_ (List.Pairwise.cons hl.1 hl.2)
      intro z hz
      rcases List.mem_cons.mp hz with rfl | hz2
      · exact hex
      · exact lexLe_trans hex (hl.1 z hz2)
    · rename_i hex
      refine List.Pairwise.cons ?_ (ih hl.2)
      intro z hz
      rcases mem_insEntry hz with heq | hz2
      · rw [heq]
        rcases lexLe_total e.1 x.1 with h | h
        · exact absurd h hex
        · exact h
      · exact hl.1 z hz2

theorem pairwise_sortEntries (l : List FsEntry) :
    List.Pairwise entLe (sortEntries l) := by
  induction l with
  | nil => simp [sortEntries]
  | cons x xs ih => exact pairwise_insEntry ih

theorem sortEntries_eq_self {l : List FsEntry} (h : List.Pairwise entLe l) :
    sortEntries l = l := by
  induction l with
  | nil => rfl
  | cons x xs ih =>
    rw [List.pairwise_cons] at h
    rw [sortEntries, ih h.2]
    cases xs with
    | nil => rfl
    | cons y ys =>
      have : lexLe x.1 y.1 = true := h.1 y (List.mem_cons_self y ys)
      simp [insEntry, this]

theorem sorted_perm_keysNodup_eq : ∀ {l₁ l₂ : List FsEntry},
    List.Perm l₁ l₂ → List.Pairwise entLe l₁ → List.Pairwise entLe l₂ →
    (l₁.map Prod.fst).Nodup → l₁ = l₂ := by
  intro l₁
  induction l₁ with
  | nil =>
    intro l₂ h _ _ _
    exact (List.Perm.eq_nil h.symm).symm
  | cons x xs ih =>
    intro l₂ h hs1 hs2 hnd
    cases l₂ with
    | nil => exact absurd (List.Perm.eq_nil h) (by simp)
    | cons y ys =>
      have hxy : x = y := by
        have hx2 : x ∈ y :: ys := h.subset (List.mem_cons_self x xs)
        rcases List.mem_cons.mp hx2 with rfl | hxys
        · rfl
        · have hy1 : y ∈ x :: xs := h.symm.subset (List.mem_cons_self y ys)
          rcases List.mem_cons.mp hy1 with rfl | hyxs
          · rfl
          · rw [List.pairwise_cons] at hs1 hs2
            have h1 : lexLe x.1 y.1 = true := hs1.1 y hyxs
            have h2 : lexLe y.1 x.1 = true := hs2.1 x hxys
            have hkey : x.1 = y.1 := lexLe_antisymm h1 h2
            rw [List.map_cons, List.nodup_cons] at hnd
            exact absurd (hkey ▸ List.mem_map_of_mem Prod.fst hyxs) hnd.1
      subst hxy
      have htail : xs = ys := by
        refine ih (List.Perm.cons_inv h) ?_ ?_ ?_
        · exact (List.pairwise_cons.mp hs1).2
        · exact (List.pairwise_cons.mp hs2).2
        · exact (List.nodup_cons.mp (by simpa using hnd)).2
      rw [htail]

/-- Sorting is determined by the multiset of entries as soon as the names
are distinct: any two listing orders of the same directory sort to the
same entry list. -/
theorem sortEntries_perm_eq {l₁ l₂ : List FsEntry} (h : List.Perm l₁ l₂)
    (hnd : (l₁.map Prod.fst).Nodup) : sortEntries l₁ = sortEntries l₂ := by
  refine sorted_perm_keysNodup_eq ?_ (pairwise_sortEntries l₁) (pairwise_sortEntries l₂) ?_
  · exact (sortEntries_perm l₁).trans (h.trans (sortEntries_perm l₂).symm)
  · exact hnd.perm ((sortEntries_perm l₁).map Prod.fst).symm

/-! Well-formedness: a tree canonically representing a real directory has
strictly sorted (hence distinct) entry names in every directory. -/

/-- Strict sortedness of an entry list by name. -/
def keysStrict : List FsEntry → Bool
  | [] => true
  | [_] => true
  | e :: e' :: rest => lexLt e.1 e'.1 && keysStrict (e' :: rest)

mutual

/-- Well-formed tree: every directory lists strictly sorted, distinct
names (as real directory listings do). -/
def wfNode : FsNode → Bool
  | .file _ _ => true
  | .dir es => keysStrict es && wfEntries es

def wfEntries : List FsEntry → Bool
  | [] => true
  | (_, t) :: rest => wfNode t && wfEntries rest

end

theorem keysStrict_pairwise : ∀ {l : List FsEntry}, keysStrict l = true →
    List.Pairwise entLt l := by
  intro l
  induction l with
  | nil => intro _; exact List.Pairwise.nil
  | cons x xs ih =>
    intro h
    cases xs with
    | nil => simp
    | cons y ys =>
      rw [keysStrict, Bool.and_eq_true] at h
      have htail := ih h.2
      refine List.Pairwise.cons ?_ htail
      intro z hz
      rcases List.mem_cons.mp hz with heq | hz2
      · rw [heq]; exact h.1
      · exact lexLt_trans h.1 ((List.pairwise_cons.mp htail).1 z hz2)

theorem pairwise_entLe_of_entLt {l : List FsEntry} (h : List.Pairwise entLt l) :
    List.Pairwise entLe l :=
  h.imp (fun hab => lexLt_le hab)

theorem keysNodup_of_entLt {l : List FsEntry} (h : List.Pairwise entLt l) :
    (l.map Prod.fst).Nodup := by
  have h2 : List.Pairwise (fun a b : FsEntry => a.1 ≠ b.1) l :=
    h.imp (fun hab => lexLt_ne hab)
  exact List.pairwise_map.mpr h2

theorem wfEntries_mem : ∀ {l : List FsEntry}, wfEntries l = true →
    ∀ e ∈ l, wfNode e.2 = true := by
  intro l
  induction l with
  | nil => intro _ e he; cases he
  | cons x xs ih =>
    intro h e he
    cases x with
    | mk n t =>
      rw [wfEntries, Bool.and_eq_true] at h
      rcases List.mem_cons.mp he with heq | h2
      · rw [heq]; exact h.1
      · exact ih h.2 e h2

theorem wfNode_dir {es : List FsEntry} (h : wfNode (.dir es) = true) :
    keysStrict es = true ∧ wfEntries es = true := by
  rw [wfNode, Bool.and_eq_true] at h
  exact h

/-! The relisting relation: `PermTree t t'` holds when `t'` describes the
same files and directories as `t`, with each directory's entries possibly
listed in a different order.  Two successive `os.walk` traversals of an
unchanged directory tree are related exactly in this way. -/

mutual

/-- `t'` is `t` with directory entries re-listed in arbitrary order. -/
inductive PermTree : FsNode → FsNode → Prop where
  | file (c : List Nat) (r : Bool) : PermTree (.file c r) (.file c r)
  | dir (es es₀ es' : List FsEntry) : PermEntries es es₀ → List.Perm es₀ es' →
      PermTree (.dir es) (.dir es')

/-- Pointwise relisting of entry lists: same names in the same positions,
subtrees related by `PermTree`. -/
inductive PermEntries : List FsEntry → List FsEntry → Prop where
  | nil : PermEntries [] []
  | cons (n : ByteStr) (t t' : FsNode) (l l' : List FsEntry) :
      PermTree t t' → PermEntries l l' → PermEntries ((n, t) :: l) ((n, t') :: l')

end

theorem permTree_isFile {t t' : FsNode} (h : PermTree t t') :
    t.isFile = t'.isFile := by
  cases h <;> rfl

theorem permTree_isDir {t t' : FsNode} (h : PermTree t t') :
    t.isDir = t'.isDir := by
  cases h <;> rfl

theorem permEntries_names : ∀ {l l' : List FsEntry}, PermEntries l l' →
    l.map Prod.fst = l'.map Prod.fst := by
  intro l
  induction l with
  | nil => intro l' h; cases h; rfl
  | cons x xs ih =>
    intro l' h
    cases h with
    | cons n t t' l l' hpt hpe => simp [ih hpe]

theorem permEntries_filter (p : FsNode → Bool)
    (hp : ∀ {t t' : FsNode}, PermTree t t' → p t = p t') :
    ∀ {l l' : List FsEntry}, PermEntries l l' →
      PermEntries (l.filter (fun e => p e.2)) (l'.filter (fun e => p e.2)) := by
  intro l
  induction l with
  | nil => intro l' h; cases h; exact PermEntries.nil
  | cons x xs ih =>
    intro l' h
    cases h with
    | cons n t t' rest rest' hpt hpe =>
      by_cases hpt2 : p t = true
      · have hpt2' : p t' = true := (hp hpt) ▸ hpt2
        simpa [List.filter, hpt2, hpt2'] using PermEntries.cons n t t' _ _ hpt (ih hpe)
      · have hpt2' : ¬ p t' = true := fun hc => hpt2 ((hp hpt) ▸ hc)
        simpa [List.filter, hpt2, hpt2'] using ih hpe

theorem permEntries_files_eq : ∀ {l l' : List FsEntry}, PermEntries l l' →
    (∀ e ∈ l, e.2.isFile = true) → l = l' := by
  intro l
  induction l with
  | nil => intro l' h _; cases h; rfl
  | cons x xs ih =>
    intro l' h hf
    cases h with
    | cons n t t' rest rest' hpt hpe =>
      have ht : t.isFile = true := hf (n, t) (List.mem_cons_self _ _)
      have heq : t = t' := by
        cases hpt with
        | file c r => rfl
        | dir es es₀ es' _ _ => simp [FsNode.isFile] at ht
      rw [heq, ih hpe (fun e he => hf e (List.mem_cons_of_mem _ he))]

theorem pairwise_entLt_of_names_eq : ∀ {l l' : List FsEntry},
    l.map Prod.fst = l'.map Prod.fst → List.Pairwise entLt l →
    List.Pairwise entLt l' := by
  intro l
  induction l with
  | nil =>
    intro l' hn _
    cases l' with
    | nil => exact List.Pairwise.nil
    | cons y ys => simp at hn
  | cons x xs ih =>
    intro l' hn h
    cases l' with
    | nil => simp at hn
    | cons y ys =>
      simp only [List.map_cons, List.cons.injEq] at hn
      rw [List.pairwise_cons] at h ⊢
      constructor
      · intro z hz
        have hz1 : z.1 ∈ ys.map Prod.fst := List.mem_map_of_mem Prod.fst hz
        rw [← hn.2] at hz1
        rcases List.mem_map.mp hz1 with ⟨w, hw, hweq⟩
        have hlt := h.1 w hw
        unfold entLt at hlt ⊢
        rw [← hn.1, ← hweq]
        exact hlt
      · exact ih hn.2 h.2

/-! Unfolding equations for the walk, and determinism of the fingerprint
under re-listing of directory entries. -/

theorem calculate_directory_hash_file (c : List Nat) (r : Bool) :
    calculate_directory_hash (.file c r) = [] := by
  rw [calculate_directory_hash.eq_def]

theorem calculate_directory_hash_dir (es : List FsEntry) :
    calculate_directory_hash (.dir es) =
      ((sortEntries (es.filter (fun e => e.2.isFile))).map fileContrib).flatten
        ++ walkStreams (sortEntries (es.filter (fun e => e.2.isDir))) := by
  rw [calculate_directory_hash.eq_def]

theorem walkStreams_nil : walkStreams [] = [] := by
  rw [walkStreams.eq_def]

theorem walkStreams_cons (e : FsEntry) (rest : List FsEntry) :
    walkStreams (e :: rest) = calculate_directory_hash e.2 ++ walkStreams rest := by
  rw [walkStreams.eq_def]

theorem sizeOf_mem_lt {e : FsEntry} : ∀ {l : List FsEntry}, e ∈ l → sizeOf e < sizeOf l := by
  intro l
  induction l with
  | nil => intro h; cases h
  | cons x xs ih =>
    intro h
    rcases List.mem_cons.mp h with heq | h2
    · rw [heq]; simp; omega
    · have := ih h2; simp; omega

theorem sizeOf_fsNode_pos (t : FsNode) : 0 < sizeOf t := by
  cases t <;> simp

/-- Congruence of `walkStreams` along a pointwise relisting, given the
per-subtree hash equalities. -/
theorem walkStreams_congr : ∀ {l l' : List FsEntry}, PermEntries l l' →
    (∀ t₂ t₂' : FsNode, t₂ ∈ l.map Prod.snd → PermTree t₂ t₂' →
      calculate_directory_hash t₂ = calculate_directory_hash t₂') →
    walkStreams l = walkStreams l' := by
  intro l
  induction l with
  | nil => intro l' h _; cases h; rfl
  | cons x xs ih =>
    intro l' h hrec
    cases h with
    | cons n t t' rest rest' hpt hpe =>
      rw [walkStreams_cons, walkStreams_cons, hrec t t' (by simp) hpt,
        ih hpe (fun a b ha hb => hrec a b (by simp [ha]) hb)]

theorem hash_permTree_aux (k : Nat) : ∀ (t t' : FsNode), sizeOf t ≤ k →
    PermTree t t' → wfNode t = true →
    calculate_directory_hash t = calculate_directory_hash t' := by
  induction k with
  | zero =>
    intro t t' hle _ _
    exact absurd hle (by have := sizeOf_fsNode_pos t; omega)
  | succ k ih =>
    intro t t' hle h hw
    cases t with
    | file c r =>
      cases h with
      | file _ _ => rfl
    | dir es =>
      cases h with
      | dir _ es₀ es' hpe hperm =>
      have hwd := wfNode_dir hw
      have hlt : List.Pairwise entLt es := keysStrict_pairwise hwd.1
      have hnames : es.map Prod.fst = es₀.map Prod.fst := permEntries_names hpe
      have hlt₀ : List.Pairwise entLt es₀ := pairwise_entLt_of_names_eq hnames hlt
      have hltF : List.Pairwise entLt (es.filter (fun e => e.2.isFile)) :=
        List.Pairwise.sublist (List.filter_sublist es) hlt
      have hltD : List.Pairwise entLt (es.filter (fun e => e.2.isDir)) :=
        List.Pairwise.sublist (List.filter_sublist es) hlt
      have hltF₀ : List.Pairwise entLt (es₀.filter (fun e => e.2.isFile)) :=
        List.Pairwise.sublist (List.filter_sublist es₀) hlt₀
      have hltD₀ : List.Pairwise entLt (es₀.filter (fun e => e.2.isDir)) :=
        List.Pairwise.sublist (List.filter_sublist es₀) hlt₀
      have hpeF := permEntries_filter FsNode.isFile (fun hx => permTree_isFile hx) hpe
      have hpeD := permEntries_filter FsNode.isDir (fun hx => permTree_isDir hx) hpe
      have e1 : sortEntries (es.filter (fun e => e.2.isFile)) =
          es.filter (fun e => e.2.isFile) :=
        sortEntries_eq_self (pairwise_entLe_of_entLt hltF)
      have e2 : sortEntries (es.filter (fun e => e.2.isDir)) =
          es.filter (fun e => e.2.isDir) :=
        sortEntries_eq_self (pairwise_entLe_of_entLt hltD)
      have e3 : sortEntries (es'.filter (fun e => e.2.isFile)) =
          es₀.filter (fun e => e.2.isFile) := by
        have hp := List.Perm.filter (fun e => e.2.isFile) hperm
        have he := sortEntries_perm_eq hp (keysNodup_of_entLt hltF₀)
        rw [← he, sortEntries_eq_self (pairwise_entLe_of_entLt hltF₀)]
      have e4 : sortEntries (es'.filter (fun e => e.2.isDir)) =
          es₀.filter (fun e => e.2.isDir) := by
        have hp := List.Perm.filter (fun e => e.2.isDir) hperm
        have he := sortEntries_perm_eq hp (keysNodup_of_entLt hltD₀)
        rw [← he, sortEntries_eq_self (pairwise_entLe_of_entLt hltD₀)]
      have e5 : es.filter (fun e => e.2.isFile) = es₀.filter (fun e => e.2.isFile) :=
        permEntries_files_eq hpeF (by
          intro e he
          exact (List.mem_filter.mp he).2)
      have e6 : walkStreams (es.filter (fun e => e.2.isDir)) =
          walkStreams (es₀.filter (fun e => e.2.isDir)) := by
        refine walkStreams_congr hpeD ?_
        intro t₂ t₂' hmem hpt₂
        rcases List.mem_map.mp hmem with ⟨e, he, heq⟩
        have hees : e ∈ es := List.mem_of_mem_filter he
        have hsz : sizeOf t₂ ≤ k := by
          have h1 : sizeOf e < sizeOf es := sizeOf_mem_lt hees
          have h2 : sizeOf e.2 < sizeOf e := sizeOf_snd_lt e
          have h3 : sizeOf (FsNode.dir es) = 1 + sizeOf es := by simp
          rw [← heq]
          omega
        have hwf : wfNode t₂ = true := by
          rw [← heq]
          exact wfEntries_mem hwd.2 e hees
        exact ih t₂ t₂' hsz hpt₂ hwf
      rw [calculate_directory_hash_dir, calculate_directory_hash_dir,
        e1, e2, e3, e4, ← e5, e6]

/-- Determinism of the fingerprint stream: a well-formed tree and any
re-listing of it (the same directories and files, each directory's
entries listed in some other order, as a second `os.walk` of the
unchanged tree may produce) yield the same accumulator stream. -/
theorem hash_permTree {t t' : FsNode} (h : PermTree t t') (hw : wfNode t = true) :
    calculate_directory_hash t = calculate_directory_hash t' :=
  hash_permTree_aux (sizeOf t) t t' (Nat.le_refl _) h hw

/-! Sensitivity of the fingerprint stream: adding or removing a file
changes the stream length; modifying a readable file changes the
stream. -/

theorem walkStreams_length : ∀ (l : List FsEntry),
    (walkStreams l).length = (l.map (fun e => (calculate_directory_hash e.2).length)).sum := by
  intro l
  induction l with
  | nil => rw [walkStreams_nil]; rfl
  | cons x xs ih => rw [walkStreams_cons]; simp [ih]

theorem hash_dir_length (es : List FsEntry) :
    (calculate_directory_hash (.dir es)).length =
      ((es.filter (fun e => e.2.isFile)).map (fun e => (fileContrib e).length)).sum
        + ((es.filter (fun e => e.2.isDir)).map
            (fun e => (calculate_directory_hash e.2).length)).sum := by
  rw [calculate_directory_hash_dir, List.length_append]
  congr 1
  · rw [List.length_flatten]
    have hp := ((sortEntries_perm (es.filter (fun e => e.2.isFile))).map fileContrib).map
      List.length
    rw [hp.sum_eq]
    simp [List.map_map]
    rfl
  · rw [walkStreams_length]
    have hp := (sortEntries_perm (es.filter (fun e => e.2.isDir))).map
      (fun e => (calculate_directory_hash e.2).length)
    rw [hp.sum_eq]

/-- `AddAt n c r t t\x27` relates a tree `t` to the tree `t\x27` obtained by
inserting one new file entry (name `n`, content `c`, readability `r`)
somewhere in some directory of `t`.  Read left-to-right it models adding
a file; right-to-left, removing one. -/
inductive AddAt (n : ByteStr) (c : List Nat) (r : Bool) : FsNode → FsNode → Prop where
  | here (pre post : List FsEntry) :
      AddAt n c r (.dir (pre ++ post)) (.dir (pre ++ (n, .file c r) :: post))
  | deeper (pre post : List FsEntry) (m : ByteStr) (t t' : FsNode) :
      AddAt n c r t t' →
      AddAt n c r (.dir (pre ++ (m, t) :: post)) (.dir (pre ++ (m, t') :: post))

theorem addAt_shape {n c r} {t t' : FsNode} (h : AddAt n c r t t') :
    t.isDir = true ∧ t'.isDir = true := by
  cases h <;> exact ⟨rfl, rfl⟩

theorem addAt_length {n c r} : ∀ {t t' : FsNode}, AddAt n c r t t' →
    (calculate_directory_hash t').length =
      (calculate_directory_hash t).length + n.length + (if r then c.length else 0) := by
  intro t t' h
  induction h with
  | here pre post =>
    rw [hash_dir_length, hash_dir_length]
    simp [List.filter_append, List.filter_cons, FsNode.isFile, FsNode.isDir, fileContrib]
    cases r <;> simp <;> omega
  | deeper pre post m t t' hsub ih =>
    have hsh := addAt_shape hsub
    rw [hash_dir_length, hash_dir_length]
    have ht : t.isFile = false := by
      cases t with
      | file _ _ => simp [FsNode.isDir] at hsh
      | dir _ => rfl
    have ht' : t'.isFile = false := by
      cases t' with
      | file _ _ => simp [FsNode.isDir] at hsh
      | dir _ => rfl
    simp [List.filter_append, List.filter_cons, ht, ht', hsh.1, hsh.2]
    omega

theorem hash_ne_of_addAt {n : ByteStr} {c : List Nat} {r : Bool} {t t' : FsNode}
    (h : AddAt n c r t t') (hn : n ≠ []) :
    calculate_directory_hash t ≠ calculate_directory_hash t' := by
  intro heq
  have hl := addAt_length h
  rw [heq] at hl
  have hpos : 0 < n.length := List.length_pos.mpr hn
  cases r <;> simp at hl
  · exact hn hl
  · omega

/-- Evaluation of the walk at a directory whose listing is already
strictly sorted: sorting is the identity. -/
theorem hash_dir_of_pairwise {es : List FsEntry} (h : List.Pairwise entLt es) :
    calculate_directory_hash (.dir es) =
      ((es.filter (fun e => e.2.isFile)).map fileContrib).flatten
        ++ walkStreams (es.filter (fun e => e.2.isDir)) := by
  rw [calculate_directory_hash_dir,
    sortEntries_eq_self
      (pairwise_entLe_of_entLt (List.Pairwise.sublist (List.filter_sublist es) h)),
    sortEntries_eq_self
      (pairwise_entLe_of_entLt (List.Pairwise.sublist (List.filter_sublist es) h))]

/-- `ModAt c c' r t t''` relates a tree to the same tree with the content
of one file (readability flag `r`) changed from `c` to `c'`. -/
inductive ModAt (c c' : List Nat) (r : Bool) : FsNode → FsNode → Prop where
  | here (pre post : List FsEntry) (n : ByteStr) :
      ModAt c c' r (.dir (pre ++ (n, .file c r) :: post))
                   (.dir (pre ++ (n, .file c' r) :: post))
  | deeper (pre post : List FsEntry) (m : ByteStr) (t t' : FsNode) :
      ModAt c c' r t t' →
      ModAt c c' r (.dir (pre ++ (m, t) :: post)) (.dir (pre ++ (m, t') :: post))

theorem modAt_shape {c c' r} {t t' : FsNode} (h : ModAt c c' r t t') :
    t.isDir = true ∧ t'.isDir = true := by
  cases h <;> exact ⟨rfl, rfl⟩

theorem hash_ne_of_modAt {c c' : List Nat} (hcc : c ≠ c') :
    ∀ {r : Bool} {t t' : FsNode}, ModAt c c' r t t' → r = true → wfNode t = true →
      calculate_directory_hash t ≠ calculate_directory_hash t' := by
  intro r t t' h
  induction h with
  | here pre post n =>
    intro hr hw heq
    subst hr
    have hlt : List.Pairwise entLt (pre ++ (n, FsNode.file c true) :: post) :=
      keysStrict_pairwise (wfNode_dir hw).1
    have hnames : (pre ++ (n, FsNode.file c true) :: post).map Prod.fst =
        (pre ++ (n, FsNode.file c' true) :: post).map Prod.fst := by simp
    have hlt' := pairwise_entLt_of_names_eq hnames hlt
    rw [hash_dir_of_pairwise hlt, hash_dir_of_pairwise hlt'] at heq
    simp [List.filter_append, List.filter_cons, FsNode.isFile, FsNode.isDir,
      fileContrib] at heq
    exact hcc heq
  | deeper pre post m t t' hsub ih =>
    intro hr hw heq
    have hsh := modAt_shape hsub
    have ht : t.isFile = false := by
      cases t with
      | file _ _ => simp [FsNode.isDir] at hsh
      | dir _ => rfl
    have ht' : t'.isFile = false := by
      cases t' with
      | file _ _ => simp [FsNode.isDir] at hsh
      | dir _ => rfl
    have hlt : List.Pairwise entLt (pre ++ (m, t) :: post) :=
      keysStrict_pairwise (wfNode_dir hw).1
    have hnames : (pre ++ (m, t) :: post).map Prod.fst =
        (pre ++ (m, t') :: post).map Prod.fst := by simp
    have hlt' := pairwise_entLt_of_names_eq hnames hlt
    rw [hash_dir_of_pairwise hlt, hash_dir_of_pairwise hlt'] at heq
    simp [List.filter_append, List.filter_cons, ht, ht', hsh.1, hsh.2,
      walkStreams_append, walkStreams_cons] at heq
    have hwt : wfNode t = true :=
      wfEntries_mem (wfNode_dir hw).2 (m, t) (by simp)
    exact ih hr hwt heq

/-! The fingerprint algorithm as the specification describes it, for
comparison with the source's algorithm. -/

/-- What the spec says one file feeds to the accumulator: its name
relative to the fingerprinted root (path segments joined by byte 47,
the slash), then its full content; an unreadable file is skipped
entirely.  `pre` is the encoded relative directory prefix (ending in a
slash when nonempty). -/
def specFileContrib (pre : List Nat) : FsEntry → List Nat
  | (n, .file c true) => (pre ++ n) ++ c
  | (_, .file _ false) => []
  | (_, .dir _) => []

mutual

/-- The fingerprint stream as described by the specification sentence:
deterministic sorted walk, feeding each file's relative name and full
byte content, skipping unreadable files. -/
def spec_relative_stream (pre : List Nat) (t : FsNode) : List Nat :=
  match t with
  | .file _ _ => []
  | .dir es =>
    ((sortEntries (es.filter (fun e => e.2.isFile))).map (specFileContrib pre)).flatten
      ++ spec_relative_streams pre (sortEntries (es.filter (fun e => e.2.isDir)))
termination_by sizeOf t
decreasing_by
  simp only [FsNode.dir.sizeOf_spec]
  apply sizeOf_sortFilter_lt

/-- List version of `spec_relative_stream`, extending the prefix with
each subdirectory's name and a slash. -/
def spec_relative_streams (pre : List Nat) (l : List FsEntry) : List Nat :=
  match l with
  | [] => []
  | e :: rest =>
    spec_relative_stream (pre ++ e.1 ++ [47]) e.2 ++ spec_relative_streams pre rest
termination_by sizeOf l
decreasing_by
  · simp only [List.cons.sizeOf_spec]
    exact Nat.lt_of_lt_of_le (sizeOf_snd_lt _) (by omega)
  · simp; try omega

end

mutual

/-- The file entries met by the deterministic walk, in walk order. -/
def collectFiles (t : FsNode) : List FsEntry :=
  match t with
  | .file _ _ => []
  | .dir es =>
    sortEntries (es.filter (fun e => e.2.isFile))
      ++ collectFilesList (sortEntries (es.filter (fun e => e.2.isDir)))
termination_by sizeOf t
decreasing_by
  simp only [FsNode.dir.sizeOf_spec]
  apply sizeOf_sortFilter_lt

/-- List version of `collectFiles`. -/
def collectFilesList (l : List FsEntry) : List FsEntry :=
  match l with
  | [] => []
  | e :: rest => collectFiles e.2 ++ collectFilesList rest
termination_by sizeOf l
decreasing_by
  · simp only [List.cons.sizeOf_spec]
    exact Nat.lt_of_lt_of_le (sizeOf_snd_lt _) (by omega)
  · simp; try omega

end

theorem collectFiles_file (c : List Nat) (r : Bool) : collectFiles (.file c r) = [] := by
  rw [collectFiles.eq_def]

theorem collectFiles_dir (es : List FsEntry) :
    collectFiles (.dir es) =
      sortEntries (es.filter (fun e => e.2.isFile))
        ++ collectFilesList (sortEntries (es.filter (fun e => e.2.isDir))) := by
  rw [collectFiles.eq_def]

theorem collectFilesList_nil : collectFilesList [] = [] := by
  rw [collectFilesList.eq_def]

theorem collectFilesList_cons (e : FsEntry) (rest : List FsEntry) :
    collectFilesList (e :: rest) = collectFiles e.2 ++ collectFilesList rest := by
  rw [collectFilesList.eq_def]

theorem walkStreams_collect : ∀ (l : List FsEntry),
    (∀ e ∈ l, calculate_directory_hash e.2 = ((collectFiles e.2).map fileContrib).flatten) →
    walkStreams l = ((collectFilesList l).map fileContrib).flatten := by
  intro l
  induction l with
  | nil => intro _; rw [walkStreams_nil, collectFilesList_nil]; rfl
  | cons x xs ih =>
    intro hrec
    rw [walkStreams_cons, collectFilesList_cons, List.map_append, List.flatten_append,
      hrec x (List.mem_cons_self _ _), ih (fun e he => hrec e (List.mem_cons_of_mem _ he))]

theorem hash_collect_aux (k : Nat) : ∀ (t : FsNode), sizeOf t ≤ k →
    calculate_directory_hash t = ((collectFiles t).map fileContrib).flatten := by
  induction k with
  | zero =>
    intro t hle
    exact absurd hle (by have := sizeOf_fsNode_pos t; omega)
  | succ k ih =>
    intro t hle
    cases t with
    | file c r => rw [calculate_directory_hash_file, collectFiles_file]; rfl
    | dir es =>
      rw [calculate_directory_hash_dir, collectFiles_dir, List.map_append,
        List.flatten_append]
      congr 1
      refine walkStreams_collect _ ?_
      intro e he
      have hees : e ∈ es := by
        have h1 := (sortEntries_perm (es.filter (fun x => x.2.isDir))).subset he
        exact List.mem_of_mem_filter h1
      refine ih e.2 ?_
      have h1 : sizeOf e < sizeOf es := sizeOf_mem_lt hees
      have h2 : sizeOf e.2 < sizeOf e := sizeOf_snd_lt e
      have h3 : sizeOf (FsNode.dir es) = 1 + sizeOf es := by simp
      omega

/-- The source hash stream is the single-accumulator fold of the
deterministic walk-ordered file listing, with each file contributing its
base name and (when readable) its content. -/
theorem hash_eq_collect (t : FsNode) :
    calculate_directory_hash t = ((collectFiles t).map fileContrib).flatten :=
  hash_collect_aux (sizeOf t) t (Nat.le_refl _)

/-! Association lists embedding Python `dict`s (insertion order
preserved, unique keys). -/

/-- Embeds `d.get(k)` / `k in d` on a Python dict. -/
def alookup {α : Type} : List (String × α) → String → Option α
  | [], _ => none
  | (k', v) :: rest, k => if k' = k then some v else alookup rest k

/-- Embeds `d[k] = v` on a Python dict: replace in place, else append. -/
def aset {α : Type} : List (String × α) → String → α → List (String × α)
  | [], k, v => [(k, v)]
  | (k', v') :: rest, k, v =>
    if k' = k then (k, v) :: rest else (k', v') :: aset rest k v

/-! The `Snapshot` record and `SnapshotManager` (snapshot.py). -/

/-- Embeds the `Snapshot` class: `domains` maps a domain name to the
fingerprint recorded for it (the idealised hash stream). -/
structure Snapshot where
  name : String
  snapshot_id : String
  created_at : String
  domains : List (String × List Nat)
  description : String
deriving DecidableEq

/-- The dictionary produced by `Snapshot.to_dict` / consumed by
`Snapshot.from_dict`; `description` is optional because `from_dict`
reads it with `data.get("description", "")`. -/
structure SnapshotDict where
  name : String
  snapshot_id : String
  created_at : String
  domains : List (String × List Nat)
  description : Option String
deriving DecidableEq

/-- Embeds `Snapshot.to_dict`. -/
def Snapshot.to_dict (s : Snapshot) : SnapshotDict :=
  ⟨s.name, s.snapshot_id, s.created_at, s.domains, some s.description⟩

/-- Embeds `Snapshot.from_dict` (the four required keys are accessed
with `data[...]` and are fields of `SnapshotDict`; the optional
description defaults to the empty string). -/
def Snapshot.from_dict (d : SnapshotDict) : Snapshot :=
  ⟨d.name, d.snapshot_id, d.created_at, d.domains, d.description.getD ""⟩

/-- The content of `snapshots.json` as written by
`SnapshotManager.save_config`. -/
structure SavedSnapshotIndex where
  snapshots : List (String × Snapshot)
  default_snapshot : Option String
deriving DecidableEq

namespace SnapshotManager

/-- The mutable state of a `SnapshotManager`: the in-memory snapshot
index and default-snapshot id, the contents of the `snapshots/`
directory (per snapshot id, a map from domain name to the stored copy of
that domain), and the persisted index file (`none` when
`snapshots.json` has not been written). -/
structure State where
  snapshots : List (String × Snapshot)
  default_snapshot : Option String
  snapshotDirs : List (String × List (String × FsNode))
  savedIndex : Option SavedSnapshotIndex

/-- Embeds `SnapshotManager.save_config`: writes the current index and
default-snapshot id to `snapshots.json`. -/
def save_config (st : State) : State :=
  { st with savedIndex := some ⟨st.snapshots, st.default_snapshot⟩ }

/-- Per-domain input to `create_snapshot`: the tree at the domain's
path (`none` when `domain_path.exists()` is false) and whether the
`shutil.copy2`/`shutil.copytree` copy of its contents succeeds
(`copy_ok = false` models an `IOError` raised while copying). -/
structure CaptureInput where
  content : Option FsNode
  copy_ok : Bool

/-- Stands in for
`hashlib.sha256(f"{name}{timestamp}".encode()).hexdigest()[:16]` — a
collision-resistant opaque token derived from the label and the capture
timestamp; only its dependence on `(name, timestamp)` matters to the
claims. -/
def snapshotIdOf (name timestamp : String) : String :=
  name ++ "#" ++ timestamp

/-- What ends up stored for one domain: the copy loop runs only under
`if domain_path.is_dir()`, so a non-directory path leaves the freshly
created domain snapshot directory empty. -/
def storeOf (tree : FsNode) : FsNode :=
  if tree.isDir then tree else .dir []

/-- Embeds the copy loop of `create_snapshot`: for each supplied domain
whose path exists, create the domain snapshot directory, copy the
domain's contents into it, then fingerprint the source tree and record
it under the domain's name.  A copy failure raises: the error
propagates, keeping the partial filesystem effects (the failing
domain's directory was created but holds an incomplete copy, modelled
as the empty directory) and discarding the hashes. -/
def copy_domains (inner : List (String × FsNode)) :
    List (String × CaptureInput) →
      List (String × FsNode) × Except Unit (List (String × List Nat))
  | [] => (inner, .ok [])
  | (dname, inp) :: rest =>
    match inp.content with
    | none => copy_domains inner rest
    | some tree =>
      if inp.copy_ok then
        match copy_domains (aset inner dname (storeOf tree)) rest with
        | (innerF, .ok hs) => (innerF, .ok ((dname, calculate_directory_hash tree) :: hs))
        | (innerF, .error e) => (innerF, .error e)
      else
        (aset inner dname (.dir []), .error ())

/-- Embeds `SnapshotManager.create_snapshot`.  The timestamp is the
`datetime.now().isoformat()` value, supplied as a parameter.  On an
I/O error during the copy loop the exception propagates (`.error`):
the snapshot directory keeps whatever was copied, but the in-memory
index and the persisted index are not touched — registration
(`self.snapshots[snapshot_id] = snapshot`) and `save_config` happen
only after the loop completes. -/
def create_snapshot (st : State) (name : String) (timestamp : String)
    (domain_paths : List (String × CaptureInput)) (description : String) :
    State × Except Unit Snapshot :=
  let snapshot_id := snapshotIdOf name timestamp
  let inner0 := (alookup st.snapshotDirs snapshot_id).getD []
  match copy_domains inner0 domain_paths with
  | (innerF, .error _) =>
    ({ st with snapshotDirs := aset st.snapshotDirs snapshot_id innerF }, .error ())
  | (innerF, .ok domain_hashes) =>
    let snapshot : Snapshot := ⟨name, snapshot_id, timestamp, domain_hashes, description⟩
    let st' : State :=
      { st with
        snapshots := aset st.snapshots snapshot_id snapshot,
        snapshotDirs := aset st.snapshotDirs snapshot_id innerF }
    (save_config st', .ok snapshot)

/-- Embeds `SnapshotManager.list_snapshots`. -/
def list_snapshots (st : State) : List Snapshot :=
  st.snapshots.map Prod.snd

/-- Embeds `SnapshotManager.get_snapshot`. -/
def get_snapshot (st : State) (snapshot_id : String) : Option Snapshot :=
  alookup st.snapshots snapshot_id

/-- Embeds `SnapshotManager.get_snapshot_by_name` (first match wins). -/
def get_snapshot_by_name (st : State) (name : String) : Option Snapshot :=
  ((st.snapshots.map Prod.snd).find? (fun s => s.name = name))

/-- Embeds `SnapshotManager.set_default_snapshot`: `False` and no
change when the id is unknown, otherwise record the default and save
the index. -/
def set_default_snapshot (st : State) (snapshot_id : String) : State × Bool :=
  match alookup st.snapshots snapshot_id with
  | none => (st, false)
  | some _ => (save_config { st with default_snapshot := some snapshot_id }, true)

/-- Embeds the restore loop of `restore_snapshot`: for each domain name
in the snapshot's recorded domain map that also appears in
`target_paths`, if the stored subtree exists, remove the target in full
(`shutil.rmtree`) and copy the stored subtree over
(`shutil.copytree`); a missing stored subtree is silently skipped.
`targets` maps each domain name to the live content at its path
(`none` when the path does not exist). -/
def restore_domains (inner : List (String × FsNode)) :
    List (String × List Nat) → List (String × Option FsNode) →
      List (String × Option FsNode)
  | [], targets => targets
  | (dname, _) :: rest, targets =>
    match alookup targets dname with
    | none => restore_domains inner rest targets
    | some _ =>
      match alookup inner dname with
      | none => restore_domains inner rest targets
      | some tree => restore_domains inner rest (aset targets dname (some tree))

/-- Embeds `SnapshotManager.restore_snapshot`: `False` when the id is
unknown or the snapshot directory is missing, otherwise restores
domain by domain and returns `True`. -/
def restore_snapshot (st : State) (snapshot_id : String)
    (target_paths : List (String × Option FsNode)) :
    List (String × Option FsNode) × Bool :=
  match get_snapshot st snapshot_id with
  | none => (target_paths, false)
  | some snapshot =>
    match alookup st.snapshotDirs snapshot_id with
    | none => (target_paths, false)
    | some inner => (restore_domains inner snapshot.domains target_paths, true)

end SnapshotManager

/-! The `Domain` record and `DomainManager` (domain.py). -/

/-- Embeds the `DomainType` enum. -/
inductive DomainType where
  | sys
  | cfg
  | user
  | cache
deriving DecidableEq

/-- The `.value` of each `DomainType` member. -/
def DomainType.value : DomainType → String
  | .sys => "sys"
  | .cfg => "cfg"
  | .user => "user"
  | .cache => "cache"

/-- Embeds the `DomainType(value)` constructor call: `none` models the
`ValueError` raised on an unknown value. -/
def DomainType.ofValue (v : String) : Option DomainType :=
  if v = "sys" then some .sys
  else if v = "cfg" then some .cfg
  else if v = "user" then some .user
  else if v = "cache" then some .cache
  else none

/-- Embeds the `ResetPolicy` enum. -/
inductive ResetPolicy where
  | discard
  | optional_commit
  | persistent
  | always_reset
deriving DecidableEq

/-- The `.value` of each `ResetPolicy` member. -/
def ResetPolicy.value : ResetPolicy → String
  | .discard => "discard"
  | .optional_commit => "optional"
  | .persistent => "persistent"
  | .always_reset => "always"

/-- Embeds the `ResetPolicy(value)` constructor call. -/
def ResetPolicy.ofValue (v : String) : Option ResetPolicy :=
  if v = "discard" then some .discard
  else if v = "optional" then some .optional_commit
  else if v = "persistent" then some .persistent
  else if v = "always" then some .always_reset
  else none

/-- Embeds the `Domain` class.  A `pathlib.Path` is modelled as its
list of path segments; `Path(str(p)) == p` for the normalised paths the
code builds, so `to_dict`/`from_dict` carry the segments verbatim. -/
structure Domain where
  name : String
  domain_type : DomainType
  path : List String
  reset_policy : ResetPolicy
  use_git : Bool
  use_overlay : Bool
deriving DecidableEq

/-- The dictionary produced by `Domain.to_dict` / consumed by
`Domain.from_dict`; the two flags are optional because `from_dict`
reads them with `data.get(..., False)`. -/
structure DomainDict where
  name : String
  domain_type : String
  path : List String
  reset_policy : String
  use_git : Option Bool
  use_overlay : Option Bool
deriving DecidableEq

/-- Embeds `Domain.to_dict`. -/
def Domain.to_dict (d : Domain) : DomainDict :=
  ⟨d.name, d.domain_type.value, d.path, d.reset_policy.value,
    some d.use_git, some d.use_overlay⟩

/-- Embeds `Domain.from_dict`; `none` models the `ValueError` raised by
an invalid enum value. -/
def Domain.from_dict (dd : DomainDict) : Option Domain :=
  match DomainType.ofValue dd.domain_type, ResetPolicy.ofValue dd.reset_policy with
  | some t, some p =>
    some ⟨dd.name, t, dd.path, p, dd.use_git.getD false, dd.use_overlay.getD false⟩
  | _, _ => none

namespace DomainManager

/-- Embeds `DomainManager.DEFAULT_DOMAINS`, in the dict's insertion
order: for each type, its reset policy, `use_git` and `use_overlay`. -/
def DEFAULT_DOMAINS : List (DomainType × ResetPolicy × Bool × Bool) :=
  [(.sys, .discard, false, true),
   (.cfg, .optional_commit, true, true),
   (.user, .persistent, false, false),
   (.cache, .always_reset, false, false)]

/-- Embeds `DomainManager.initialize_domains`: one domain per entry of
`DEFAULT_DOMAINS`, named by the type's value, stored at
`base_path / "domains" / type.value`, keyed by its name in
`self.domains`. -/
def initialize_domains (base_path : List String) : List (String × Domain) :=
  DEFAULT_DOMAINS.map (fun c =>
    (c.1.value,
      ⟨c.1.value, c.1, base_path ++ ["domains", c.1.value], c.2.1, c.2.2.1, c.2.2.2⟩))

/-- Python exceptions that can escape `DomainManager.load_config`. -/
inductive PyError where
  | json_decode_error
  | value_error
deriving DecidableEq

/-- Embeds the per-entry `Domain.from_dict` loop of `load_config`; a
`ValueError` from any entry propagates. -/
def from_dict_all : List (String × DomainDict) → Option (List (String × Domain))
  | [] => some []
  | (name, dd) :: rest =>
    match Domain.from_dict dd, from_dict_all rest with
    | some d, some ds => some ((name, d) :: ds)
    | _, _ => none

/-- Embeds `DomainManager.load_config`.  The stored `domains.json` is
modelled as: `none` — the file does not exist; `some none` — the file
exists but `json.load` cannot parse it; `some (some entries)` — the
parsed record.  A missing file returns `False`; a parse failure makes
`json.load` raise `json.JSONDecodeError` (uncaught, modelled as
`.error`); an invalid enum value in an entry makes `Domain.from_dict`
raise `ValueError` (uncaught). -/
def load_config (config_file : Option (Option (List (String × DomainDict))))
    (domains : List (String × Domain)) :
    Except PyError (List (String × Domain) × Bool) :=
  match config_file with
  | none => .ok (domains, false)
  | some none => .error .json_decode_error
  | some (some entries) =>
    match from_dict_all entries with
    | some doms => .ok (doms, true)
    | none => .error .value_error

end DomainManager

/-! The `DeepFreezeManager` (manager.py). -/

/-- The state of a `DeepFreezeManager`: the snapshot manager's state,
the thaw flag (presence of the `.thawed` marker file), the domain
registry, and the live content at each domain's path (`none` when the
path does not exist), keyed by domain name. -/
structure DFState where
  sm : SnapshotManager.State
  thawed : Bool
  domains : List (String × Domain)
  live : List (String × Option FsNode)

namespace DeepFreezeManager

/-- Embeds `DeepFreezeManager.thaw`: touches the `.thawed` marker file
and returns `True`. -/
def thaw (st : DFState) : DFState × Bool :=
  ({ st with thawed := true }, true)

/-- Embeds `DeepFreezeManager.freeze`: removes the `.thawed` marker if
present and returns `True`. -/
def freeze (st : DFState) : DFState × Bool :=
  ({ st with thawed := false }, true)

/-- Embeds `DeepFreezeManager.is_thawed`: the marker file's presence. -/
def is_thawed (st : DFState) : Bool :=
  st.thawed

/-- Writes the restored target map back into the live-content map. -/
def updateLive : List (String × Option FsNode) → List (String × Option FsNode) →
    List (String × Option FsNode)
  | live, [] => live
  | live, (k, v) :: rest => updateLive (aset live k v) rest

/-- Modelled from the spec: `DeepFreezeManager.restore_snapshot` with
`use_default=True` is called by the CLI and the test-suite but its
definition is missing from the sources.  Following §4.5 of the spec,
it resolves the default snapshot (failing with `NoDefaultSet`, i.e.
`False`, when none is configured) and delegates to the snapshot
store's restore against each overlay-domain's live path. -/
def restore_snapshot_default (st : DFState) : DFState × Bool :=
  match st.sm.default_snapshot with
  | none => (st, false)
  | some sid =>
    let targets := (st.domains.filter (fun p => p.2.use_overlay)).map
      (fun p => (p.1, (alookup st.live p.1).getD none))
    let res := SnapshotManager.restore_snapshot st.sm sid targets
    ({ st with live := updateLive st.live res.1 }, res.2)

/-- Modelled from the spec: `bootRestore()`, the restore-on-boot entry
point invoked by the boot-service collaborator, is absent from the
sources (the service scripts are outside `src/`).  Following §4.5: if
thawed, skip the restore entirely; if frozen and a default snapshot is
configured, perform `restoreSnapshot(useDefault=true)`.  The returned
flag reports whether a restore was performed. -/
def bootRestore (st : DFState) : DFState × Bool :=
  if is_thawed st then (st, false)
  else
    match st.sm.default_snapshot with
    | none => (st, false)
    | some _ => ((restore_snapshot_default st).1, true)

end DeepFreezeManager

/-! Lemmas about association lists and the capture/restore loops. -/

theorem alookup_aset {α : Type} (l : List (String × α)) (k : String) (v : α)
    (k' : String) : alookup (aset l k v) k' = if k = k' then some v else alookup l k' := by
  induction l with
  | nil => simp [aset, alookup]
  | cons x xs ih =>
    cases x with
    | mk kx vx =>
      simp only [aset]
      by_cases hk : kx = k
      · subst hk
        simp only [if_pos rfl, alookup]
        by_cases hk' : kx = k'
        · subst hk'; simp
        · simp [hk', alookup]
      · simp only [if_neg hk, alookup]
        by_cases hk' : kx = k'
        · subst hk'
          have hk2 : ¬ k = kx := fun h => hk h.symm
          simp [hk2]
        · rw [if_neg hk', ih]
          by_cases hkk : k = k'
          · simp [hkk]
          · simp [hkk, alookup, hk']

namespace SnapshotManager

theorem hash_storeOf (t : FsNode) :
    calculate_directory_hash (storeOf t) = calculate_directory_hash t := by
  cases t with
  | file c r =>
    rw [storeOf]
    simp [FsNode.isDir, calculate_directory_hash_file, calculate_directory_hash_dir,
      sortEntries, walkStreams_nil]
  | dir es => rw [storeOf]; rfl

/-- Successful capture: when every supplied copy succeeds, the loop
returns the recorded fingerprints, and the snapshot directory holds,
for each recorded domain, the stored copy whose fingerprint is the
recorded one. -/
theorem copy_domains_spec :
    ∀ (dps : List (String × CaptureInput)) (inner : List (String × FsNode)),
      (∀ p ∈ dps, p.2.copy_ok = true) → (dps.map Prod.fst).Nodup →
      ∃ innerF hs, copy_domains inner dps = (innerF, .ok hs)
        ∧ (∀ d fp, (d, fp) ∈ hs → ∃ tree,
             fp = calculate_directory_hash tree
               ∧ alookup innerF d = some (storeOf tree))
        ∧ (∀ d, d ∉ dps.map Prod.fst → alookup innerF d = alookup inner d)
        ∧ (∀ d fp, (d, fp) ∈ hs → d ∈ dps.map Prod.fst)
        ∧ (hs.map Prod.fst).Nodup := by
  intro dps
  induction dps with
  | nil =>
    intro inner _ _
    exact ⟨inner, [], rfl, by simp, fun d _ => rfl, by simp, by simp⟩
  | cons p rest ih =>
    intro inner hok hnd
    cases p with
    | mk dname inp =>
      have hokhd : inp.copy_ok = true := hok (dname, inp) (List.mem_cons_self _ _)
      have hoktl : ∀ q ∈ rest, q.2.copy_ok = true :=
        fun q hq => hok q (List.mem_cons_of_mem _ hq)
      have hndtl : (rest.map Prod.fst).Nodup := (List.nodup_cons.mp (by simpa using hnd)).2
      have hdnotin : dname ∉ rest.map Prod.fst :=
        (List.nodup_cons.mp (by simpa using hnd)).1
      cases hc : inp.content with
      | none =>
        rcases ih inner hoktl hndtl with ⟨innerF, hs, heq, hrec, hpres, hkeys, hhnd⟩
        refine ⟨innerF, hs, ?_, hrec, ?_, ?_, hhnd⟩
        · simp only [copy_domains, hc, heq]
        · intro d hd
          exact hpres d (fun hmem => hd (by simp [hmem]))
        · intro d fp hd
          simp [hkeys d fp hd]
      | some tree =>
        rcases ih (aset inner dname (storeOf tree)) hoktl hndtl with
          ⟨innerF, hs, heq, hrec, hpres, hkeys, hhnd⟩
        refine ⟨innerF, (dname, calculate_directory_hash tree) :: hs, ?_, ?_, ?_, ?_, ?_⟩
        · simp only [copy_domains, hc, hokhd, if_true, heq]
        · intro d fp hd
          rcases List.mem_cons.mp hd with hhd | htl
          · refine ⟨tree, by simp at hhd; exact hhd.2.symm ▸ rfl, ?_⟩
            have hdname : d = dname := by simp at hhd; exact hhd.1
            subst hdname
            rw [hpres d hdnotin, alookup_aset]
            simp
          · exact hrec d fp htl
        · intro d hd
          have hd1 : d ≠ dname := fun hcon => hd (by simp [hcon])
          have hd2 : d ∉ rest.map Prod.fst := fun hcon => hd (by simp [hcon])
          rw [hpres d hd2, alookup_aset, if_neg (fun hcon => hd1 hcon.symm)]
        · intro d fp hd
          rcases List.mem_cons.mp hd with hhd | htl
          · simp at hhd
            simp [hhd.1]
          · simp [hkeys d fp htl]
        · refine List.nodup_cons.mpr ⟨?_, hhnd⟩
          intro hcon
          rcases List.mem_map.mp hcon with ⟨q, hq, hqeq⟩
          cases q with
          | mk qd qfp =>
            simp at hqeq
            subst hqeq
            exact hdnotin (hkeys qd qfp hq)

/-- A restore touches only the domains recorded in the snapshot: any
other key of the target map is left unchanged. -/
theorem restore_domains_preserves (inner : List (String × FsNode)) :
    ∀ (doms : List (String × List Nat)) (targets : List (String × Option FsNode))
      (d : String), d ∉ doms.map Prod.fst →
      alookup (restore_domains inner doms targets) d = alookup targets d := by
  intro doms
  induction doms with
  | nil => intro targets d _; rfl
  | cons x rest ih =>
    intro targets d hd
    cases x with
    | mk dn fp =>
      have hd1 : d ≠ dn := fun hcon => hd (by simp [hcon])
      have hd2 : d ∉ rest.map Prod.fst := fun hcon => hd (by simp [hcon])
      rw [restore_domains]
      cases htg : alookup targets dn with
      | none => exact ih targets d hd2
      | some v =>
        cases hin : alookup inner dn with
        | none => exact ih targets d hd2
        | some tree =>
          rw [ih _ d hd2, alookup_aset, if_neg (fun hcon => hd1 hcon.symm)]

/-- A domain recorded in the snapshot whose stored copy exists and
whose target path is supplied ends up holding exactly the stored
copy. -/
theorem restore_domains_result (inner : List (String × FsNode)) :
    ∀ (doms : List (String × List Nat)) (targets : List (String × Option FsNode))
      (d : String) (fp : List Nat) (tree : FsNode),
      (doms.map Prod.fst).Nodup → (d, fp) ∈ doms →
      (alookup targets d).isSome → alookup inner d = some tree →
      alookup (restore_domains inner doms targets) d = some (some tree) := by
  intro doms
  induction doms with
  | nil => intro targets d fp tree _ hd _ _; cases hd
  | cons x rest ih =>
    intro targets d fp tree hnd hd htg hin
    cases x with
    | mk dn fp0 =>
      have hndtl : (rest.map Prod.fst).Nodup := (List.nodup_cons.mp (by simpa using hnd)).2
      have hdnotin : dn ∉ rest.map Prod.fst := (List.nodup_cons.mp (by simpa using hnd)).1
      rcases List.mem_cons.mp hd with hhd | htl
      · have hddn : d = dn := by simp at hhd; exact hhd.1
        subst hddn
        rw [restore_domains]
        cases htg2 : alookup targets d with
        | none => rw [htg2] at htg; cases htg
        | some v =>
          rw [hin, restore_domains_preserves inner rest _ d hdnotin, alookup_aset]
          simp
      · have hddn : d ≠ dn := by
          intro hcon
          subst hcon
          exact hdnotin (List.mem_map_of_mem Prod.fst htl)
        rw [restore_domains]
        cases htg2 : alookup targets dn with
        | none => exact ih targets d fp tree hndtl htl htg hin
        | some v =>
          cases hin2 : alookup inner dn with
          | none => exact ih targets d fp tree hndtl htl htg hin
          | some tree2 =>
            refine ih _ d fp tree hndtl htl ?_ hin
            rw [alookup_aset, if_neg (fun hcon => hddn hcon.symm)]
            exact htg

end SnapshotManager

namespace SnapshotManager

/-- A domain absent from the stored snapshot directory is never written
to: the final target map agrees with the initial one at that key. -/
theorem restore_domains_missing (inner : List (String × FsNode)) (d : String)
    (hmiss : alookup inner d = none) :
    ∀ (doms : List (String × List Nat)) (targets : List (String × Option FsNode)),
      alookup (restore_domains inner doms targets) d = alookup targets d := by
  intro doms
  induction doms with
  | nil => intro targets; rfl
  | cons x rest ih =>
    intro targets
    cases x with
    | mk dn fp0 =>
      rw [restore_domains]
      cases htg : alookup targets dn with
      | none => exact ih targets
      | some v =>
        cases hin : alookup inner dn with
        | none => exact ih targets
        | some tree =>
          rw [ih _, alookup_aset]
          have hdn : dn ≠ d := by
            intro hcon
            rw [hcon, hmiss] at hin
            cases hin
          rw [if_neg hdn]

end SnapshotManager

/-! Claim theorems. -/

/-- C1.  All-or-nothing capture: when an I/O error occurs while copying
any supplied domain's contents (`create_snapshot` returns `.error`, the
propagating `IOError`), the in-memory snapshot index, the result of
`list_snapshots` and the persisted snapshot index are all exactly as
before — no snapshot entry for the attempt is registered. -/
theorem C1_create_snapshot_all_or_nothing
    (st : SnapshotManager.State) (name timestamp : String)
    (domain_paths : List (String × SnapshotManager.CaptureInput)) (description : String)
    (herr : (SnapshotManager.create_snapshot st name timestamp domain_paths description).2
      = .error ()) :
    SnapshotManager.list_snapshots
        (SnapshotManager.create_snapshot st name timestamp domain_paths description).1
      = SnapshotManager.list_snapshots st
    ∧ (SnapshotManager.create_snapshot st name timestamp domain_paths description).1.snapshots
      = st.snapshots
    ∧ (SnapshotManager.create_snapshot st name timestamp domain_paths description).1.savedIndex
      = st.savedIndex := by
  rcases hcd : SnapshotManager.copy_domains
      ((alookup st.snapshotDirs (SnapshotManager.snapshotIdOf name timestamp)).getD [])
      domain_paths with ⟨innerF, res⟩
  cases res with
  | error e =>
    simp only [SnapshotManager.create_snapshot, hcd]
    refine ⟨?_, ?_, ?_⟩ <;> first | rfl | trivial
  | ok hs =>
    exfalso
    simp [SnapshotManager.create_snapshot, hcd] at herr

def C1state : SnapshotManager.State := ⟨[], none, [], none⟩

def C1inputs : List (String × SnapshotManager.CaptureInput) :=
  [("sys", ⟨some (.dir []), false⟩)]

/-- Witness for C1: a concrete capture whose only domain copy fails. -/
theorem C1_create_snapshot_all_or_nothing_witness :
    (SnapshotManager.create_snapshot C1state "base" "2024" C1inputs "").2 = .error ()
    ∧ SnapshotManager.list_snapshots
        (SnapshotManager.create_snapshot C1state "base" "2024" C1inputs "").1
      = SnapshotManager.list_snapshots C1state :=
  ⟨rfl, (C1_create_snapshot_all_or_nothing C1state "base" "2024" C1inputs "" rfl).1⟩

def C3snap : Snapshot := ⟨"snap", "id1", "ts", [("sys", [1])], ""⟩

def C3state : SnapshotManager.State := ⟨[("id1", C3snap)], none, [("id1", [])], none⟩

def C3targets : List (String × Option FsNode) := [("sys", some (.dir []))]

/-- C3, counterexample.  The claim says a restore must treat a claimed
domain whose stored subtree is absent as fatal and must not silently
skip it and report overall success.  Here the snapshot claims domain
`"sys"`, its snapshot directory exists but holds no `"sys"` subtree,
and `restore_snapshot` silently skips the domain, leaves the target
untouched and still returns `True`. -/
theorem C3_defensive_restore_counterexample :
    SnapshotManager.get_snapshot C3state "id1" = some C3snap
    ∧ ("sys", [1]) ∈ C3snap.domains
    ∧ alookup C3state.snapshotDirs "id1" = some []
    ∧ SnapshotManager.restore_snapshot C3state "id1" C3targets = (C3targets, true) :=
  ⟨rfl, by simp [C3snap], rfl, rfl⟩

/-- C3, amended.  What the code actually does: restore fails only when
the snapshot id is unknown or the whole snapshot directory is missing;
a claimed domain whose stored subtree is absent is silently skipped —
its target is left unchanged — and restore still reports overall
success. -/
theorem C3_defensive_restore_amended (st : SnapshotManager.State) (sid : String)
    (targets : List (String × Option FsNode)) (snap : Snapshot)
    (inner : List (String × FsNode)) (d : String) (fp : List Nat)
    (hsnap : alookup st.snapshots sid = some snap)
    (hdir : alookup st.snapshotDirs sid = some inner)
    (hdom : (d, fp) ∈ snap.domains)
    (hmiss : alookup inner d = none) :
    (SnapshotManager.restore_snapshot st sid targets).2 = true
    ∧ alookup (SnapshotManager.restore_snapshot st sid targets).1 d
      = alookup targets d := by
  have hres : SnapshotManager.restore_snapshot st sid targets
      = (SnapshotManager.restore_domains inner snap.domains targets, true) := by
    simp [SnapshotManager.restore_snapshot, SnapshotManager.get_snapshot, hsnap, hdir]
  rw [hres]
  exact ⟨rfl, SnapshotManager.restore_domains_missing inner d hmiss snap.domains targets⟩

/-- Witness for C3's amended theorem, at the counterexample state. -/
theorem C3_defensive_restore_amended_witness :
    alookup C3state.snapshots "id1" = some C3snap
    ∧ alookup ([] : List (String × FsNode)) "sys" = none
    ∧ (SnapshotManager.restore_snapshot C3state "id1" C3targets).2 = true
    ∧ alookup (SnapshotManager.restore_snapshot C3state "id1" C3targets).1 "sys"
      = alookup C3targets "sys" :=
  ⟨rfl, rfl,
    (C3_defensive_restore_amended C3state "id1" C3targets C3snap [] "sys" [1]
      rfl rfl (by simp [C3snap]) rfl).1,
    (C3_defensive_restore_amended C3state "id1" C3targets C3snap [] "sys" [1]
      rfl rfl (by simp [C3snap]) rfl).2⟩

/-- C8.  `set_default_snapshot` atomicity: an unknown id returns `False`
and changes nothing (same state — in particular the previously
configured default and the persisted index are untouched); a known id
returns `True`, records the designation and durably writes it to the
persisted index. -/
theorem C8_set_default_snapshot_atomicity (st : SnapshotManager.State) (sid : String) :
    (alookup st.snapshots sid = none →
      SnapshotManager.set_default_snapshot st sid = (st, false)
      ∧ (SnapshotManager.set_default_snapshot st sid).1.default_snapshot
        = st.default_snapshot
      ∧ (SnapshotManager.set_default_snapshot st sid).1.savedIndex = st.savedIndex)
    ∧ (∀ snap, alookup st.snapshots sid = some snap →
        (SnapshotManager.set_default_snapshot st sid).2 = true
        ∧ (SnapshotManager.set_default_snapshot st sid).1.default_snapshot = some sid
        ∧ (SnapshotManager.set_default_snapshot st sid).1.savedIndex
          = some ⟨st.snapshots, some sid⟩) := by
  constructor
  · intro h
    simp [SnapshotManager.set_default_snapshot, h]
  · intro snap h
    simp [SnapshotManager.set_default_snapshot, h, SnapshotManager.save_config]

def C8snap : Snapshot := ⟨"s", "id1", "t", [], ""⟩

def C8state : SnapshotManager.State := ⟨[("id1", C8snap)], some "id0", [], none⟩

/-- Witness for C8: a concrete state with default `"id0"`; setting an
unknown id changes nothing, setting `"id1"` records it durably. -/
theorem C8_set_default_snapshot_atomicity_witness :
    alookup C8state.snapshots "nope" = none
    ∧ SnapshotManager.set_default_snapshot C8state "nope" = (C8state, false)
    ∧ alookup C8state.snapshots "id1" = some C8snap
    ∧ (SnapshotManager.set_default_snapshot C8state "id1").1.default_snapshot = some "id1"
    ∧ (SnapshotManager.set_default_snapshot C8state "id1").1.savedIndex
      = some ⟨C8state.snapshots, some "id1"⟩ :=
  ⟨rfl, ((C8_set_default_snapshot_atomicity C8state "nope").1 rfl).1, rfl,
    ((C8_set_default_snapshot_atomicity C8state "id1").2 C8snap rfl).2.1,
    ((C8_set_default_snapshot_atomicity C8state "id1").2 C8snap rfl).2.2⟩

/-- C9, counterexample.  The claim says an unparseable record is
reported as an explicit parse-failure result of `load_config`; in the
code `json.load` raises `json.JSONDecodeError`, which is not caught:
the embedded function yields `.error` (a propagating exception), not an
`.ok` result. -/
theorem C9_load_failure_counterexample :
    DomainManager.load_config (some none) []
      = .error DomainManager.PyError.json_decode_error := rfl

/-- C9, amended.  `load_config` returns an explicit `False` result when
no record exists (`NotInitialized`); when the record exists but cannot
be parsed, the JSON decode error propagates as an uncaught exception
instead of being returned as an explicit result. -/
theorem C9_load_failure_amended (domains : List (String × Domain)) :
    DomainManager.load_config none domains = .ok (domains, false)
    ∧ DomainManager.load_config (some none) domains
      = .error DomainManager.PyError.json_decode_error :=
  ⟨rfl, rfl⟩

/-- C10.  Serialization round-trip: `from_dict ∘ to_dict` is the
identity on `Domain` and on `Snapshot`. -/
theorem C10_serialization_round_trip :
    (∀ d : Domain, Domain.from_dict (Domain.to_dict d) = some d)
    ∧ (∀ s : Snapshot, Snapshot.from_dict (Snapshot.to_dict s) = s) := by
  constructor
  · intro d
    rcases d with ⟨n, t, p, rp, g, o⟩
    cases t <;> cases rp <;> rfl
  · intro s
    rcases s with ⟨n, sid, ca, doms, desc⟩
    rfl

/-- `isUnder p q` holds when path `p` is strictly inside directory `q`
(the segments of `q` are a proper initial segment of those of `p`). -/
def isUnder : List String → List String → Bool
  | _ :: _, [] => true
  | [], _ => false
  | p :: ps, q :: qs => p = q && isUnder ps qs

theorem isUnder_append (base p q : List String) :
    isUnder (base ++ p) (base ++ q) = isUnder p q := by
  induction base with
  | nil => rfl
  | cons b bs ih => simp [isUnder, ih]

/-- C6.  The default domain table: exactly four domains, one per type in
the fixed order, with exactly the configured policy/flags and the path
`base / "domains" / type`; all four paths are pairwise distinct and none
is nested inside another's. -/
theorem C6_default_domain_table (base_path : List String) :
    (DomainManager.initialize_domains base_path).length = 4
    ∧ (DomainManager.initialize_domains base_path).map (fun p => p.2.domain_type)
      = [.sys, .cfg, .user, .cache]
    ∧ alookup (DomainManager.initialize_domains base_path) "sys"
      = some ⟨"sys", .sys, base_path ++ ["domains", "sys"], .discard, false, true⟩
    ∧ alookup (DomainManager.initialize_domains base_path) "cfg"
      = some ⟨"cfg", .cfg, base_path ++ ["domains", "cfg"], .optional_commit, true, true⟩
    ∧ alookup (DomainManager.initialize_domains base_path) "user"
      = some ⟨"user", .user, base_path ++ ["domains", "user"], .persistent, false, false⟩
    ∧ alookup (DomainManager.initialize_domains base_path) "cache"
      = some ⟨"cache", .cache, base_path ++ ["domains", "cache"], .always_reset, false, false⟩
    ∧ (∀ p₁ ∈ DomainManager.initialize_domains base_path,
        ∀ p₂ ∈ DomainManager.initialize_domains base_path,
          p₁.1 ≠ p₂.1 →
            p₁.2.path ≠ p₂.2.path ∧ isUnder p₁.2.path p₂.2.path = false) := by
  refine ⟨rfl, rfl, ?_, ?_, ?_, ?_, ?_⟩
  · simp [DomainManager.initialize_domains, DomainManager.DEFAULT_DOMAINS, alookup,
      DomainType.value]
  · simp [DomainManager.initialize_domains, DomainManager.DEFAULT_DOMAINS, alookup,
      DomainType.value]
  · simp [DomainManager.initialize_domains, DomainManager.DEFAULT_DOMAINS, alookup,
      DomainType.value]
  · simp [DomainManager.initialize_domains, DomainManager.DEFAULT_DOMAINS, alookup,
      DomainType.value]
  · intro p₁ h₁ p₂ h₂ hne
    simp only [DomainManager.initialize_domains, DomainManager.DEFAULT_DOMAINS,
      List.map_cons, List.map_nil, List.mem_cons, List.not_mem_nil, or_false,
      DomainType.value] at h₁ h₂
    rcases h₁ with h₁ | h₁ | h₁ | h₁ <;> rcases h₂ with h₂ | h₂ | h₂ | h₂ <;>
        subst h₁ <;> subst h₂ <;>
      first
        | exact absurd rfl hne
        | exact ⟨fun hcon => absurd (List.append_cancel_left hcon) (by decide),
            by rw [isUnder_append]; decide⟩

/-- C7.  Boot-restore gating by the freeze flag: after `thaw()`, the
boot-restore entry point performs no restore (and leaves the state
untouched) even when a default snapshot is configured; after `freeze()`
with a default snapshot configured, it performs the restore of the
default snapshot. -/
theorem C7_boot_restore_gating (st : DFState) :
    DeepFreezeManager.bootRestore (DeepFreezeManager.thaw st).1
      = ((DeepFreezeManager.thaw st).1, false)
    ∧ (∀ sid, st.sm.default_snapshot = some sid →
        (DeepFreezeManager.bootRestore (DeepFreezeManager.freeze st).1).2 = true
        ∧ (DeepFreezeManager.bootRestore (DeepFreezeManager.freeze st).1).1
          = (DeepFreezeManager.restore_snapshot_default
              (DeepFreezeManager.freeze st).1).1) := by
  constructor
  · simp [DeepFreezeManager.bootRestore, DeepFreezeManager.thaw,
      DeepFreezeManager.is_thawed]
  · intro sid h
    simp [DeepFreezeManager.bootRestore, DeepFreezeManager.freeze,
      DeepFreezeManager.is_thawed, h]

def C7snap : Snapshot := ⟨"s", "id1", "t", [("sys", [])], ""⟩

def C7state : DFState :=
  ⟨⟨[("id1", C7snap)], some "id1", [("id1", [("sys", .dir [])])], none⟩, false,
    [("sys", ⟨"sys", .sys, ["d", "sys"], .discard, false, true⟩)],
    [("sys", some (.dir []))]⟩

/-- Witness for C7: a concrete manager state with default snapshot
`"id1"` configured. -/
theorem C7_boot_restore_gating_witness :
    C7state.sm.default_snapshot = some "id1"
    ∧ DeepFreezeManager.bootRestore (DeepFreezeManager.thaw C7state).1
      = ((DeepFreezeManager.thaw C7state).1, false)
    ∧ (DeepFreezeManager.bootRestore (DeepFreezeManager.freeze C7state).1).2 = true :=
  ⟨rfl, (C7_boot_restore_gating C7state).1,
    ((C7_boot_restore_gating C7state).2 "id1" rfl).1⟩

theorem spec_relative_stream_file (pre : List Nat) (c : List Nat) (r : Bool) :
    spec_relative_stream pre (.file c r) = [] := by
  rw [spec_relative_stream.eq_def]

theorem spec_relative_stream_dir (pre : List Nat) (es : List FsEntry) :
    spec_relative_stream pre (.dir es) =
      ((sortEntries (es.filter (fun e => e.2.isFile))).map (specFileContrib pre)).flatten
        ++ spec_relative_streams pre (sortEntries (es.filter (fun e => e.2.isDir))) := by
  rw [spec_relative_stream.eq_def]

theorem spec_relative_streams_nil (pre : List Nat) :
    spec_relative_streams pre [] = [] := by
  rw [spec_relative_streams.eq_def]

theorem spec_relative_streams_cons (pre : List Nat) (e : FsEntry) (rest : List FsEntry) :
    spec_relative_streams pre (e :: rest) =
      spec_relative_stream (pre ++ e.1 ++ [47]) e.2 ++ spec_relative_streams pre rest := by
  rw [spec_relative_streams.eq_def]

/-- A tree with a file inside a subdirectory (`s/f`, readable) and an
unreadable file `u` at the root. -/
def C4tree : FsNode :=
  .dir [([115], .dir [([102], .file [49] true)]), ([117], .file [50] false)]

/-- C4, counterexample.  The claim describes the algorithm as feeding
each file's name relative to the fingerprinted root and skipping
unreadable files; the code feeds the base name only
(`filepath.name`), and feeds an unreadable file's name before the
failing `open`.  On `C4tree` the code's accumulator stream is
`[117, 102, 49]` (u's name; then f's base name and content) while the
claimed algorithm would feed `[115, 47, 102, 49]` (s/f with content,
u skipped). -/
theorem C4_fingerprint_algorithm_counterexample :
    calculate_directory_hash C4tree ≠ spec_relative_stream [] C4tree := by
  have h1 : calculate_directory_hash C4tree = [117, 102, 49] := by
    simp [C4tree, calculate_directory_hash_dir, calculate_directory_hash_file,
      walkStreams_cons, walkStreams_nil, sortEntries, insEntry, lexLe, fileContrib,
      FsNode.isFile, FsNode.isDir, List.filter]
  have h2 : spec_relative_stream [] C4tree = [115, 47, 102, 49] := by
    simp [C4tree, spec_relative_stream_dir, spec_relative_stream_file,
      spec_relative_streams_cons, spec_relative_streams_nil, sortEntries, insEntry,
      lexLe, specFileContrib, FsNode.isFile, FsNode.isDir, List.filter]
  rw [h1, h2]
  decide

/-- C4, amended.  The fingerprint is computed by walking the tree in
the fully deterministic sorted order (directories sorted, files sorted
within each directory — `collectFiles` lists the files met, in walk
order) and feeding, for each file, its base name followed by its full
byte content when it is readable — an unreadable file contributes its
name only — into one single accumulator. -/
theorem C4_fingerprint_algorithm_amended (t : FsNode) :
    calculate_directory_hash t = ((collectFiles t).map fileContrib).flatten :=
  hash_eq_collect t

def C5X₁ : FsNode := .dir [([110], .file [1] false)]

def C5X₂ : FsNode := .dir [([110], .file [2] false)]

/-- C5, counterexample.  `C5X₂` is `C5X₁` with the bytes of the (sole,
unreadable) file modified, yet the accumulator streams — hence the
fingerprints — coincide, because an unreadable file contributes only
its name.  This falsifies "modifying any file's bytes changes the
fingerprint". -/
theorem C5_determinism_sensitivity_counterexample :
    ModAt [1] [2] false C5X₁ C5X₂
    ∧ ([1] : List Nat) ≠ [2]
    ∧ calculate_directory_hash C5X₁ = calculate_directory_hash C5X₂ := by
  refine ⟨ModAt.here [] [] [110], by decide, ?_⟩
  simp [C5X₁, C5X₂, calculate_directory_hash_dir, walkStreams_nil, sortEntries,
    insEntry, fileContrib, FsNode.isFile, FsNode.isDir, List.filter]

/-- C5, amended.  Over well-formed trees (each directory lists distinct,
sorted names, as real directories do) and with the hash idealised as its
accumulator stream: (1) determinism — any re-listing of an unchanged
tree fingerprints identically; (2) modifying the bytes of a readable
file changes the fingerprint; (3) adding a file (with nonempty name) —
equivalently, reading right-to-left, removing one — changes the
fingerprint.  An unreadable file's bytes are excluded (see the
counterexample), as fingerprinting skips content it cannot read. -/
theorem C5_determinism_sensitivity_amended :
    (∀ t t' : FsNode, wfNode t = true → PermTree t t' →
      calculate_directory_hash t = calculate_directory_hash t')
    ∧ (∀ (c c' : List Nat) (t t' : FsNode), wfNode t = true → ModAt c c' true t t' →
        c ≠ c' → calculate_directory_hash t ≠ calculate_directory_hash t')
    ∧ (∀ (n : ByteStr) (c : List Nat) (r : Bool) (t t' : FsNode), AddAt n c r t t' →
        n ≠ [] → calculate_directory_hash t ≠ calculate_directory_hash t') :=
  ⟨fun _ _ hw h => hash_permTree h hw,
   fun _ _ _ _ hw h hcc => hash_ne_of_modAt hcc h rfl hw,
   fun _ _ _ _ _ h hn => hash_ne_of_addAt h hn⟩

def C5T₁ : FsNode := .dir [([97], .file [1] true), ([98], .file [2] true)]

def C5T₂ : FsNode := .dir [([98], .file [2] true), ([97], .file [1] true)]

def C5U₁ : FsNode := .dir [([110], .file [1] true)]

def C5U₂ : FsNode := .dir [([110], .file [2] true)]

def C5V₁ : FsNode := .dir []

def C5V₂ : FsNode := .dir [([109], .file [3] true)]

/-- Witness for C5's amended theorem: a re-listed two-file directory
fingerprints identically; modifying a readable file's bytes changes the
fingerprint; adding a file changes the fingerprint. -/
theorem C5_determinism_sensitivity_amended_witness :
    (wfNode C5T₁ = true
      ∧ calculate_directory_hash C5T₁ = calculate_directory_hash C5T₂)
    ∧ (wfNode C5U₁ = true ∧ ([1] : List Nat) ≠ [2]
      ∧ calculate_directory_hash C5U₁ ≠ calculate_directory_hash C5U₂)
    ∧ (([109] : ByteStr) ≠ []
      ∧ calculate_directory_hash C5V₁ ≠ calculate_directory_hash C5V₂) := by
  refine ⟨⟨by rfl, ?_⟩, ⟨by rfl, by decide, ?_⟩, ⟨by decide, ?_⟩⟩
  · refine C5_determinism_sensitivity_amended.1 C5T₁ C5T₂ (by rfl) ?_
    exact PermTree.dir _ _ _
      (PermEntries.cons _ _ _ _ _ (PermTree.file _ _)
        (PermEntries.cons _ _ _ _ _ (PermTree.file _ _) PermEntries.nil))
      (List.Perm.swap _ _ _)
  · exact C5_determinism_sensitivity_amended.2.1 [1] [2] C5U₁ C5U₂ (by rfl)
      (ModAt.here [] [] [110]) (by decide)
  · exact C5_determinism_sensitivity_amended.2.2 [109] [3] true C5V₁ C5V₂
      (AddAt.here [] []) (by decide)

/-- C2.  Round trip: capture a set of domains (all copies succeeding,
domain names distinct, fresh snapshot id), then restore that snapshot
with the same domain-to-path map (every captured domain has a target
entry); recomputing the directory fingerprint of each restored domain
path yields exactly the fingerprint recorded in the snapshot's
per-domain fingerprint map. -/
theorem C2_round_trip
    (st : SnapshotManager.State) (name timestamp description : String)
    (domain_paths : List (String × SnapshotManager.CaptureInput))
    (targets : List (String × Option FsNode))
    (hok : ∀ p ∈ domain_paths, p.2.copy_ok = true)
    (hnodup : (domain_paths.map Prod.fst).Nodup)
    (hfresh : alookup st.snapshotDirs (SnapshotManager.snapshotIdOf name timestamp) = none)
    (htargets : ∀ p ∈ domain_paths, (alookup targets p.1).isSome = true) :
    ∀ snap, (SnapshotManager.create_snapshot st name timestamp domain_paths description).2
        = .ok snap →
      (SnapshotManager.restore_snapshot
          (SnapshotManager.create_snapshot st name timestamp domain_paths description).1
          snap.snapshot_id targets).2 = true
      ∧ ∀ d fp, (d, fp) ∈ snap.domains →
          ∃ tree,
            alookup (SnapshotManager.restore_snapshot
                (SnapshotManager.create_snapshot st name timestamp domain_paths
                  description).1
                snap.snapshot_id targets).1 d = some (some tree)
            ∧ calculate_directory_hash tree = fp := by
  intro snap hcr
  rcases SnapshotManager.copy_domains_spec domain_paths
      ((alookup st.snapshotDirs (SnapshotManager.snapshotIdOf name timestamp)).getD [])
      hok hnodup with ⟨innerF, hs, heqc, hrec, hpres, hkeys, hhnd⟩
  have hcreate : SnapshotManager.create_snapshot st name timestamp domain_paths description
      = (SnapshotManager.save_config
          { st with
            snapshots := aset st.snapshots (SnapshotManager.snapshotIdOf name timestamp)
              ⟨name, SnapshotManager.snapshotIdOf name timestamp, timestamp, hs, description⟩,
            snapshotDirs := aset st.snapshotDirs
              (SnapshotManager.snapshotIdOf name timestamp) innerF },
          .ok ⟨name, SnapshotManager.snapshotIdOf name timestamp, timestamp, hs,
            description⟩) := by
    simp only [SnapshotManager.create_snapshot, heqc]
  have hsnap : snap = ⟨name, SnapshotManager.snapshotIdOf name timestamp, timestamp, hs,
      description⟩ := by
    rw [hcreate] at hcr
    exact (Except.ok.injEq _ _).mp hcr.symm |>.symm ▸ rfl
  have hsid : snap.snapshot_id = SnapshotManager.snapshotIdOf name timestamp := by
    rw [hsnap]
  have hdoms : snap.domains = hs := by
    rw [hsnap]
  have hget : SnapshotManager.get_snapshot
      (SnapshotManager.create_snapshot st name timestamp domain_paths description).1
      snap.snapshot_id = some snap := by
    rw [hcreate, hsid, hsnap]
    simp only [SnapshotManager.get_snapshot, SnapshotManager.save_config]
    rw [alookup_aset, if_pos rfl]
  have hdirs : alookup
      (SnapshotManager.create_snapshot st name timestamp domain_paths description).1.snapshotDirs
      snap.snapshot_id = some innerF := by
    rw [hcreate, hsid]
    simp only [SnapshotManager.save_config]
    rw [alookup_aset, if_pos rfl]
  have hrest : SnapshotManager.restore_snapshot
      (SnapshotManager.create_snapshot st name timestamp domain_paths description).1
      snap.snapshot_id targets
      = (SnapshotManager.restore_domains innerF snap.domains targets, true) := by
    rw [SnapshotManager.restore_snapshot, hget, hdirs]
  refine ⟨by rw [hrest], ?_⟩
  intro d fp hd
  rw [hdoms] at hd
  rcases hrec d fp hd with ⟨tree, hfp, hlook⟩
  refine ⟨SnapshotManager.storeOf tree, ?_, ?_⟩
  · rw [hrest, hdoms]
    refine SnapshotManager.restore_domains_result innerF hs targets d fp
      (SnapshotManager.storeOf tree) hhnd hd ?_ hlook
    have hdk : d ∈ domain_paths.map Prod.fst := hkeys d fp hd
    rcases List.mem_map.mp hdk with ⟨p, hp, hpd⟩
    rw [← hpd]
    exact htargets p hp
  · rw [SnapshotManager.hash_storeOf, hfp]

def C2tree : FsNode := .dir [([97], .file [49] true)]

def C2state : SnapshotManager.State := ⟨[], none, [], none⟩

def C2inputs : List (String × SnapshotManager.CaptureInput) :=
  [("sys", ⟨some C2tree, true⟩)]

def C2targets : List (String × Option FsNode) := [("sys", none)]

def C2snap : Snapshot := ⟨"base", "base#2024", "2024", [("sys", [97, 49])], ""⟩

/-- Witness for C2: one domain holding the file `a` with content `1`;
capturing and restoring it succeeds, and the restored tree's
fingerprint is the recorded one. -/
theorem C2_round_trip_witness :
    (SnapshotManager.create_snapshot C2state "base" "2024" C2inputs "").2 = .ok C2snap
    ∧ (SnapshotManager.restore_snapshot
        (SnapshotManager.create_snapshot C2state "base" "2024" C2inputs "").1
        C2snap.snapshot_id C2targets).2 = true := by
  have hcr : (SnapshotManager.create_snapshot C2state "base" "2024" C2inputs "").2
      = .ok C2snap := by
    simp [SnapshotManager.create_snapshot, SnapshotManager.copy_domains, C2state,
      C2inputs, C2snap, SnapshotManager.snapshotIdOf, SnapshotManager.storeOf,
      SnapshotManager.save_config, alookup, aset, C2tree, calculate_directory_hash_dir,
      calculate_directory_hash_file, walkStreams_nil, sortEntries, insEntry,
      fileContrib, FsNode.isFile, FsNode.isDir, List.filter]
  refine ⟨hcr, ?_⟩
  exact (C2_round_trip C2state "base" "2024" "" C2inputs C2targets
    (by intro p hp; simp [C2inputs] at hp; simp [hp])
    (by simp [C2inputs])
    (by rfl)
    (by intro p hp; simp [C2inputs] at hp; simp [hp, C2targets, alookup])
    C2snap hcr).1

/-- Witness for C6 at the base path `["base"]`: the sys domain's
configuration, and the sys/cfg pair's path distinctness and
non-nesting. -/
theorem C6_default_domain_table_witness :
    alookup (DomainManager.initialize_domains ["base"]) "sys"
      = some ⟨"sys", .sys, ["base", "domains", "sys"], .discard, false, true⟩
    ∧ (("sys", (⟨"sys", .sys, ["base", "domains", "sys"], .discard, false,
          true⟩ : Domain)).2.path
        ≠ (("cfg", (⟨"cfg", .cfg, ["base", "domains", "cfg"], .optional_commit, true,
          true⟩ : Domain)).2.path)
      ∧ isUnder ["base", "domains", "sys"] ["base", "domains", "cfg"] = false) := by
  constructor
  · exact (C6_default_domain_table ["base"]).2.2.1
  · exact (C6_default_domain_table ["base"]).2.2.2.2.2.2
      ("sys", ⟨"sys", .sys, ["base", "domains", "sys"], .discard, false, true⟩)
      (by simp [DomainManager.initialize_domains, DomainManager.DEFAULT_DOMAINS,
        DomainType.value])
      ("cfg", ⟨"cfg", .cfg, ["base", "domains", "cfg"], .optional_commit, true, true⟩)
      (by simp [DomainManager.initialize_domains, DomainManager.DEFAULT_DOMAINS,
        DomainType.value])
      (by decide)

end Deepfreeze
